import Mathlib

/-!
Shallow embedding of the comment-collection core of
`xhs_manusCrawlerComments.py`: note-id extraction from URLs
(`extract_note_id_from_url`), response-body parsing
(`parse_comment_response`), the incremental dedup merge performed by
`handle_comment_api_response`, and the aggregate writer
(`save_all_comments_to_file`).  JSON dictionary access is modelled with
`Option` fields (a missing key is `none`); Python sets of comment ids are
modelled as lists of strings to which an id is consed exactly where the
source calls `set.add`; the two global dictionaries keyed by note id are
modelled as one function from note ids to `ItemState`.
-/

set_option maxHeartbeats 1000000

/-- Raw author object of a comment entry (the `user_info` value). -/
structure RawUser where
  nickname : Option String
  deriving DecidableEq

/-- Raw reply entry, i.e. one element of a `sub_comments` array. -/
structure RawSubComment where
  content : Option String
  like_count : Option String
  ip_location : Option String
  user_info : Option RawUser
  id : Option String
  deriving DecidableEq

/-- Raw top-level comment entry of the response body. -/
structure RawComment where
  content : Option String
  like_count : Option String
  ip_location : Option String
  user_info : Option RawUser
  id : Option String
  sub_comments : Option (List RawSubComment)
  deriving DecidableEq

/-- Payload object of the response body (the `data` value). -/
structure ResponseData where
  comments : Option (List RawComment)
  deriving DecidableEq

/-- Decoded JSON response body of the comment-page API. -/
structure ResponseBody where
  success : Option Bool
  code : Option Int
  data : Option ResponseData
  deriving DecidableEq

/-- Parsed reply record as stored inside a nested comment (the
`sub_comment_data` dictionaries built by `parse_comment_response`). -/
structure SubCommentData where
  content : String
  like_count : String
  ip_location : String
  nickname : String
  comment_id : String
  deriving DecidableEq

/-- Parsed top-level comment record with its replies (the `comment_data`
dictionaries built by `parse_comment_response`). -/
structure NestedComment where
  content : String
  like_count : String
  ip_location : String
  nickname : String
  comment_id : String
  sub_comments : List SubCommentData
  deriving DecidableEq

/-- Parsed flat record, one CSV row (the `flat_comment` dictionaries). -/
structure FlatComment where
  content : String
  like_count : String
  ip_location : String
  nickname : String
  note_id : String
  comment_id : String
  parent_comment_id : String
  is_sub_comment : Bool
  deriving DecidableEq

/-- Accumulated state of one note id: the entry of `all_comments_data`
paired with the entry of `all_comments_flat`. -/
structure ItemState where
  nested : List NestedComment
  flat : List FlatComment
  deriving DecidableEq

/-- Display name extraction: `comment.get('user_info', {}).get('nickname', '')`. -/
def nicknameOf : Option RawUser → String
  | none => ""
  | some u => u.nickname.getD ""

/-- Parsed reply record: field extraction with defaults, as in the source. -/
def parseSubData (sc : RawSubComment) : SubCommentData :=
  ⟨sc.content.getD "", sc.like_count.getD "0", sc.ip_location.getD "",
   nicknameOf sc.user_info, sc.id.getD ""⟩

/-- Parsed top-level comment with its reply list. -/
def parseNested (c : RawComment) : NestedComment :=
  ⟨c.content.getD "", c.like_count.getD "0", c.ip_location.getD "",
   nicknameOf c.user_info, c.id.getD "", (c.sub_comments.getD []).map parseSubData⟩

/-- Flat row for a top-level comment (empty parent id, reply flag false). -/
def parseFlatTop (note_id : String) (c : RawComment) : FlatComment :=
  ⟨c.content.getD "", c.like_count.getD "0", c.ip_location.getD "",
   nicknameOf c.user_info, note_id, c.id.getD "", "", false⟩

/-- Flat row for a reply (parent id of the owning comment, reply flag true). -/
def parseFlatSub (note_id : String) (c : RawComment) (sc : RawSubComment) : FlatComment :=
  ⟨sc.content.getD "", sc.like_count.getD "0", sc.ip_location.getD "",
   nicknameOf sc.user_info, note_id, sc.id.getD "", c.id.getD "", true⟩

/-- Flat rows contributed by one top-level entry: its own row followed by
its reply rows, in body order. -/
def flatSeg (note_id : String) (c : RawComment) : List FlatComment :=
  parseFlatTop note_id c :: (c.sub_comments.getD []).map (parseFlatSub note_id c)

/-- Comment list of a body: `response_data.get('data', {}).get('comments', [])`. -/
def commentsOf (body : ResponseBody) : List RawComment :=
  ((body.data.getD ⟨none⟩).comments).getD []

/-- Embedding of `parse_comment_response`: empty outputs unless the body
reports `success` and a zero `code`; otherwise one nested record per
top-level entry and the concatenation of the per-entry flat rows. -/
def parse_comment_response (body : ResponseBody) (note_id : String) :
    List NestedComment × List FlatComment :=
  if body.success = some true ∧ body.code = some 0 then
    ((commentsOf body).map parseNested,
     ((commentsOf body).map (flatSeg note_id)).flatten)
  else ([], [])

/-- Lookup of the flat row of a top-level comment inside the freshly
parsed flat batch (the first `next(...)` expression of the handler). -/
def findFlatTop (fcs : List FlatComment) (cid : String) : Option FlatComment :=
  fcs.find? (fun fc => fc.comment_id == cid && !fc.is_sub_comment)

/-- Lookup of the flat row of a reply inside the freshly parsed flat
batch (the second `next(...)` expression of the handler). -/
def findFlatSub (fcs : List FlatComment) (cid : String) : Option FlatComment :=
  fcs.find? (fun fc => fc.comment_id == cid && fc.is_sub_comment)

/-- Result of the reply sub-loop: updated id sets and accepted flat rows. -/
structure SubRes where
  seenN : List String
  seenF : List String
  acc : List FlatComment

/-- Embedding of the inner loop over `nested_c['sub_comments']`: a reply
id not yet in the nested id set is marked seen and its flat row (looked
up in the whole flat batch) is accepted unless its id is already in the
flat id set. -/
def processSubs (batchFlat : List FlatComment) (seenN seenF : List String) :
    List SubCommentData → SubRes
  | [] => ⟨seenN, seenF, []⟩
  | sc :: rest =>
    if sc.comment_id ∈ seenN then
      processSubs batchFlat seenN seenF rest
    else
      match findFlatSub batchFlat sc.comment_id with
      | some fsc =>
        if fsc.comment_id ∈ seenF then
          processSubs batchFlat (sc.comment_id :: seenN) seenF rest
        else
          let r := processSubs batchFlat (sc.comment_id :: seenN) (fsc.comment_id :: seenF) rest
          ⟨r.seenN, r.seenF, fsc :: r.acc⟩
      | none => processSubs batchFlat (sc.comment_id :: seenN) seenF rest

/-- Result of the merge loop: final id sets, accepted nested records and
accepted flat rows. -/
structure LoopRes where
  seenN : List String
  seenF : List String
  newN : List NestedComment
  newF : List FlatComment

/-- Embedding of the loop over `nested_comments` in
`handle_comment_api_response`: a top-level record whose id is already in
the nested id set is skipped together with everything inside it;
otherwise it is accepted, its flat row is looked up and accepted when its
id is fresh in the flat id set, and its replies are processed by
`processSubs`. -/
def mergeLoop (batchFlat : List FlatComment) (seenN seenF : List String) :
    List NestedComment → LoopRes
  | [] => ⟨seenN, seenF, [], []⟩
  | c :: rest =>
    if c.comment_id ∈ seenN then
      mergeLoop batchFlat seenN seenF rest
    else
      let tp : List String × List FlatComment :=
        match findFlatTop batchFlat c.comment_id with
        | some fc =>
          if fc.comment_id ∈ seenF then (seenF, [])
          else (fc.comment_id :: seenF, [fc])
        | none => (seenF, [])
      let s := processSubs batchFlat (c.comment_id :: seenN) tp.1 c.sub_comments
      let r := mergeLoop batchFlat s.seenN s.seenF rest
      ⟨r.seenN, r.seenF, c :: r.newN, tp.2 ++ s.acc ++ r.newF⟩

/-- All comment ids of a nested sequence: top-level ids and reply ids, in
the order the collecting loop of the handler visits them. -/
def nestedIdList (l : List NestedComment) : List String :=
  l.flatMap (fun c => c.comment_id :: c.sub_comments.map (fun sc => sc.comment_id))

/-- All comment ids of a flat sequence. -/
def flatIdList (l : List FlatComment) : List String :=
  l.map (fun fc => fc.comment_id)

/-- Merge of one parsed batch into the state of one note id: the seen-id
sets are initialised from the accumulated sequences and the accepted
records are appended, exactly when at least one nested record was
accepted (`if new_nested_comments:`). -/
def mergeState (s : ItemState) (nc : List NestedComment) (fc : List FlatComment) : ItemState :=
  let r := mergeLoop fc (nestedIdList s.nested) (flatIdList s.flat) nc
  if r.newN.isEmpty then s else ⟨s.nested ++ r.newN, s.flat ++ r.newF⟩

/-- Parse-then-merge for one note id, the per-item core of
`handle_comment_api_response`: nothing happens when both parse outputs
are empty (`if nested_comments or flat_comments:`). -/
def applyBody (s : ItemState) (body : ResponseBody) (note_id : String) : ItemState :=
  let p := parse_comment_response body note_id
  if p.1.isEmpty && p.2.isEmpty then s else mergeState s p.1 p.2

/-- Fold of `applyBody` over a sequence of response bodies, starting from
the empty state of a fresh note id. -/
def applyAll (note_id : String) (bodies : List ResponseBody) : ItemState :=
  bodies.foldl (fun s b => applyBody s b note_id) ⟨[], []⟩

/-- Character class of the regular expressions in the source: `[a-f0-9]`. -/
def isHexDigitLower (c : Char) : Bool :=
  ('a' ≤ c && c ≤ 'f') || ('0' ≤ c && c ≤ '9')

/-- Leftmost search for `pat` immediately followed by at least one
`[a-f0-9]` character, returning the maximal such run — the behaviour of
`re.search(pat + r'([a-f0-9]+)', url)` for a literal `pat`. -/
def searchHexRun (pat : List Char) : List Char → Option (List Char)
  | [] => none
  | c :: rest =>
    if pat.isPrefixOf (c :: rest)
        && isHexDigitLower (((c :: rest).drop pat.length).headD ' ') then
      some (((c :: rest).drop pat.length).takeWhile isHexDigitLower)
    else searchHexRun pat rest

/-- Literal preceding the note id in an explore URL. -/
def explorePat : List Char := "/explore/".toList

/-- Literal preceding the note id in a query parameter. -/
def noteIdPat : List Char := "note_id=".toList

/-- Comment API URL pattern checked by the response handler. -/
def commentApiPat : List Char :=
  "https://edith.xiaohongshu.com/api/sns/web/v2/comment/page?note_id=".toList

/-- Embedding of `extract_note_id_from_url`: first try the explore form,
then the query-parameter form, otherwise return the empty string. -/
def extract_note_id_from_url (url : String) : String :=
  match searchHexRun explorePat url.toList with
  | some r => String.mk r
  | none =>
    match searchHexRun noteIdPat url.toList with
    | some r => String.mk r
    | none => ""

/-- Substring test used for the `COMMENT_API_PATTERN not in url` check. -/
def containsSeq (pat : List Char) : List Char → Bool
  | [] => pat.isEmpty
  | c :: rest => pat.isPrefixOf (c :: rest) || containsSeq pat rest

/-- Embedding of the global effect of `handle_comment_api_response` on
the pair of dictionaries keyed by note id (modelled as one function from
note ids to `ItemState`): non-matching URLs change nothing, otherwise
only the entry of the extracted note id is replaced. -/
def handle_comment_api_response (g : String → ItemState) (url : String)
    (body : ResponseBody) : String → ItemState :=
  if containsSeq commentApiPat url.toList then
    match searchHexRun noteIdPat url.toList with
    | some nid => Function.update g (String.mk nid) (applyBody (g (String.mk nid)) body (String.mk nid))
    | none => g
  else g

/-- Fixed CSV column order of both writers. -/
def csvHeader : List String :=
  ["content", "like_count", "ip_location", "nickname",
   "note_id", "comment_id", "parent_comment_id", "is_sub_comment"]

/-- Rendering of a boolean cell by `csv.DictWriter` (Python `str`). -/
def boolCell (b : Bool) : String := if b then "True" else "False"

/-- CSV row of a flat record in the fixed column order. -/
def flatRow (fc : FlatComment) : List String :=
  [fc.content, fc.like_count, fc.ip_location, fc.nickname,
   fc.note_id, fc.comment_id, fc.parent_comment_id, boolCell fc.is_sub_comment]

/-- Aggregate output: the fixed-name JSON array and, when at least one
flat record exists, the fixed-name CSV with header and rows. -/
structure AggregateFiles where
  jsonName : String
  jsonRecords : List NestedComment
  csv : Option (String × List (List String))
  deriving DecidableEq

/-- Embedding of `save_all_comments_to_file` over the registered items in
registration order: returns `none` when the writer returns without
writing, otherwise the concatenated nested records and the flat CSV. -/
def save_all_comments_to_file (items : List (String × ItemState)) : Option AggregateFiles :=
  if items.isEmpty then none
  else
    let allNested := items.foldl (fun acc p => acc ++ p.2.nested) []
    let allFlat := items.foldl (fun acc p => acc ++ p.2.flat) []
    if allNested.isEmpty && allFlat.isEmpty then none
    else
      some ⟨"All CommentData.json", allNested,
        if allFlat.isEmpty then none
        else some ("All CommentData.csv", csvHeader :: allFlat.map flatRow)⟩

/-- Body with a successful gate and the given comment list. -/
def mkOkBody (cs : List RawComment) : ResponseBody :=
  ⟨some true, some 0, some ⟨some cs⟩⟩

/-- Raw reply entry carrying only an id. -/
def mkRawSub (i : String) : RawSubComment := ⟨none, none, none, none, some i⟩

/-- Raw top-level entry carrying only an id and replies. -/
def mkRawTop (i : String) (subs : List RawSubComment) : RawComment :=
  ⟨none, none, none, none, some i, some subs⟩

example :
    extract_note_id_from_url "https://www.xiaohongshu.com/explore/66f1?note_id=9abc" = "66f1" := by
  decide

example :
    extract_note_id_from_url "https://x.com/page?note_id=9abc" = "9abc" := by
  decide

example :
    (applyBody ⟨[], []⟩ (mkOkBody [mkRawTop "p" [mkRawSub "r"]]) "n").flat =
      [⟨"", "0", "", "", "n", "p", "", false⟩, ⟨"", "0", "", "", "n", "r", "p", true⟩] := by
  decide

/-! Bookkeeping lemmas about the id lists. -/

theorem nestedIdList_nil : nestedIdList [] = [] := rfl

theorem nestedIdList_cons (c : NestedComment) (l : List NestedComment) :
    nestedIdList (c :: l) =
      c.comment_id :: ((c.sub_comments.map fun sc => sc.comment_id) ++ nestedIdList l) := by
  simp [nestedIdList]

theorem nestedIdList_append (a b : List NestedComment) :
    nestedIdList (a ++ b) = nestedIdList a ++ nestedIdList b := by
  simp [nestedIdList]

theorem flatIdList_nil : flatIdList [] = [] := rfl

theorem flatIdList_cons (f : FlatComment) (l : List FlatComment) :
    flatIdList (f :: l) = f.comment_id :: flatIdList l := rfl

theorem flatIdList_append (a b : List FlatComment) :
    flatIdList (a ++ b) = flatIdList a ++ flatIdList b := by
  simp [flatIdList]

/-- Membership in the nested id set produced by the reply sub-loop:
exactly the initial set together with the ids of the processed replies. -/
theorem processSubs_seenN_mem (bf : List FlatComment) :
    ∀ (subs : List SubCommentData) (sN sF : List String) (x : String),
      x ∈ (processSubs bf sN sF subs).seenN ↔
        x ∈ sN ∨ x ∈ subs.map (fun sc => sc.comment_id) := by
  intro subs
  induction subs with
  | nil => intro sN sF x; simp [processSubs]
  | cons sc rest ih =>
    intro sN sF x
    by_cases h : sc.comment_id ∈ sN
    · simp only [processSubs, if_pos h]
      rw [ih]
      simp only [List.map_cons, List.mem_cons]
      exact ⟨fun hx => hx.elim Or.inl (fun hx2 => Or.inr (Or.inr hx2)),
             fun hx => hx.elim Or.inl
               (fun hx2 => hx2.elim (fun he => Or.inl (he ▸ h)) Or.inr)⟩
    · simp only [processSubs, if_neg h]
      cases hf : findFlatSub bf sc.comment_id with
      | none =>
        rw [ih]
        simp only [List.map_cons, List.mem_cons]
        tauto
      | some fsc =>
        by_cases h2 : fsc.comment_id ∈ sF
        · simp only [if_pos h2]
          rw [ih]
          simp only [List.map_cons, List.mem_cons]
          tauto
        · simp only [if_neg h2]
          rw [ih]
          simp only [List.map_cons, List.mem_cons]
          tauto

/-- Membership in the flat id set produced by the reply sub-loop: exactly
the initial set together with the ids of the accepted flat rows. -/
theorem processSubs_seenF_mem (bf : List FlatComment) :
    ∀ (subs : List SubCommentData) (sN sF : List String) (x : String),
      x ∈ (processSubs bf sN sF subs).seenF ↔
        x ∈ sF ∨ x ∈ flatIdList (processSubs bf sN sF subs).acc := by
  intro subs
  induction subs with
  | nil => intro sN sF x; simp [processSubs, flatIdList]
  | cons sc rest ih =>
    intro sN sF x
    by_cases h : sc.comment_id ∈ sN
    · simp only [processSubs, if_pos h]
      exact ih sN sF x
    · simp only [processSubs, if_neg h]
      cases hf : findFlatSub bf sc.comment_id with
      | none => exact ih _ sF x
      | some fsc =>
        by_cases h2 : fsc.comment_id ∈ sF
        · simp only [if_pos h2]
          exact ih _ sF x
        · simp only [if_neg h2]
          rw [ih]
          simp only [flatIdList_cons, List.mem_cons]
          tauto

/-- Membership in the nested id set produced by the merge loop: exactly
the initial set together with every id (top-level or reply) occurring in
an accepted nested record. -/
theorem mergeLoop_seenN_mem (bf : List FlatComment) :
    ∀ (l : List NestedComment) (sN sF : List String) (x : String),
      x ∈ (mergeLoop bf sN sF l).seenN ↔
        x ∈ sN ∨ x ∈ nestedIdList (mergeLoop bf sN sF l).newN := by
  intro l
  induction l with
  | nil => intro sN sF x; simp [mergeLoop, nestedIdList]
  | cons c rest ih =>
    intro sN sF x
    by_cases h : c.comment_id ∈ sN
    · simp only [mergeLoop, if_pos h]
      exact ih sN sF x
    · simp only [mergeLoop, if_neg h]
      rw [ih]
      rw [processSubs_seenN_mem]
      simp only [nestedIdList_cons, List.mem_cons, List.mem_append]
      tauto

/-- Membership in the flat id set produced by the merge loop: exactly the
initial set together with the ids of the accepted flat rows. -/
theorem mergeLoop_seenF_mem (bf : List FlatComment) :
    ∀ (l : List NestedComment) (sN sF : List String) (x : String),
      x ∈ (mergeLoop bf sN sF l).seenF ↔
        x ∈ sF ∨ x ∈ flatIdList (mergeLoop bf sN sF l).newF := by
  intro l
  induction l with
  | nil => intro sN sF x; simp [mergeLoop, flatIdList]
  | cons c rest ih =>
    intro sN sF x
    by_cases h : c.comment_id ∈ sN
    · simp only [mergeLoop, if_pos h]
      exact ih sN sF x
    · simp only [mergeLoop, if_neg h]
      cases hft : findFlatTop bf c.comment_id with
      | none =>
        rw [ih]
        rw [processSubs_seenF_mem]
        simp only [flatIdList_append, List.mem_append, List.nil_append]
        tauto
      | some fc =>
        by_cases h2 : fc.comment_id ∈ sF
        · simp only [if_pos h2]
          rw [ih]
          rw [processSubs_seenF_mem]
          simp only [flatIdList_append, List.mem_append, List.nil_append]
          tauto
        · simp only [if_neg h2]
          rw [ih]
          rw [processSubs_seenF_mem]
          simp only [flatIdList_append, flatIdList_cons, List.mem_append, List.mem_cons,
            flatIdList_nil, List.mem_singleton]
          tauto

/-- Merge loop on a batch all of whose top-level ids are already seen:
nothing changes and nothing is accepted. -/
theorem mergeLoop_all_seen (bf : List FlatComment) :
    ∀ (l : List NestedComment) (sN sF : List String),
      (∀ c ∈ l, c.comment_id ∈ sN) → mergeLoop bf sN sF l = ⟨sN, sF, [], []⟩ := by
  intro l
  induction l with
  | nil => intro sN sF _; rfl
  | cons c rest ih =>
    intro sN sF hall
    have hc : c.comment_id ∈ sN := hall c (List.mem_cons_self c rest)
    simp only [mergeLoop, if_pos hc]
    exact ih sN sF (fun d hd => hall d (List.mem_cons_of_mem c hd))

/-- Merge loop that accepted nothing also changed nothing. -/
theorem mergeLoop_newN_nil (bf : List FlatComment) :
    ∀ (l : List NestedComment) (sN sF : List String),
      (mergeLoop bf sN sF l).newN = [] → mergeLoop bf sN sF l = ⟨sN, sF, [], []⟩ := by
  intro l
  induction l with
  | nil => intro sN sF _; rfl
  | cons c rest ih =>
    intro sN sF hnil
    by_cases h : c.comment_id ∈ sN
    · simp only [mergeLoop, if_pos h] at hnil ⊢
      exact ih sN sF hnil
    · simp only [mergeLoop, if_neg h] at hnil
      exact absurd hnil (List.cons_ne_nil _ _)

/-- Every top-level id of the input batch ends up in the final nested id
set, whether the record was accepted or skipped. -/
theorem mergeLoop_tops_seen (bf : List FlatComment) :
    ∀ (l : List NestedComment) (sN sF : List String),
      ∀ c ∈ l, c.comment_id ∈ (mergeLoop bf sN sF l).seenN := by
  intro l
  induction l with
  | nil => intro sN sF c hc; exact absurd hc (List.not_mem_nil c)
  | cons c0 rest ih =>
    intro sN sF c hc
    by_cases h : c0.comment_id ∈ sN
    · simp only [mergeLoop, if_pos h]
      rcases List.mem_cons.mp hc with hceq | hcrest
      · rw [mergeLoop_seenN_mem]
        exact Or.inl (hceq ▸ h)
      · exact ih sN sF c hcrest
    · simp only [mergeLoop, if_neg h]
      rcases List.mem_cons.mp hc with hceq | hcrest
      · rw [mergeLoop_seenN_mem]
        subst hceq
        rw [processSubs_seenN_mem]
        exact Or.inl (Or.inl (List.mem_cons_self _ _))
      · exact ih _ _ c hcrest

/-! Lockstep of the two id sets under batches produced by the parser. -/

/-- Found reply row: its id matches the searched id and its flag is set. -/
theorem findFlatSub_eq_some (bf : List FlatComment) (cid : String) (f : FlatComment)
    (h : findFlatSub bf cid = some f) : f.comment_id = cid ∧ f.is_sub_comment = true := by
  have hp := List.find?_some h
  simp only [Bool.and_eq_true, beq_iff_eq] at hp
  exact hp

/-- Found top-level row: its id matches and its flag is cleared. -/
theorem findFlatTop_eq_some (bf : List FlatComment) (cid : String) (f : FlatComment)
    (h : findFlatTop bf cid = some f) : f.comment_id = cid ∧ f.is_sub_comment = false := by
  have hp := List.find?_some h
  simp only [Bool.and_eq_true, beq_iff_eq, Bool.not_eq_true'] at hp
  exact hp

/-- Reply lookup succeeds whenever a matching row is in the batch. -/
theorem findFlatSub_isSome (bf : List FlatComment) (cid : String)
    (h : ∃ f ∈ bf, f.comment_id = cid ∧ f.is_sub_comment = true) :
    ∃ f, findFlatSub bf cid = some f := by
  obtain ⟨f, hf, h1, h2⟩ := h
  have hs : (bf.find? (fun fc => fc.comment_id == cid && fc.is_sub_comment)).isSome := by
    rw [List.find?_isSome]
    exact ⟨f, hf, by simp [h1, h2]⟩
  exact Option.isSome_iff_exists.mp hs

/-- Top-level lookup succeeds whenever a matching row is in the batch. -/
theorem findFlatTop_isSome (bf : List FlatComment) (cid : String)
    (h : ∃ f ∈ bf, f.comment_id = cid ∧ f.is_sub_comment = false) :
    ∃ f, findFlatTop bf cid = some f := by
  obtain ⟨f, hf, h1, h2⟩ := h
  have hs : (bf.find? (fun fc => fc.comment_id == cid && !fc.is_sub_comment)).isSome := by
    rw [List.find?_isSome]
    exact ⟨f, hf, by simp [h1, h2]⟩
  exact Option.isSome_iff_exists.mp hs

/-- Batch property supplied by the parser for the replies of one record:
every reply has a matching flat reply row in the flat batch. -/
def SubCover (bf : List FlatComment) (subs : List SubCommentData) : Prop :=
  ∀ sc ∈ subs, ∃ f ∈ bf, f.comment_id = sc.comment_id ∧ f.is_sub_comment = true

/-- Batch property supplied by the parser: every nested record has a
matching top-level flat row, and its replies are covered as well. -/
def TopCover (bf : List FlatComment) (nc : List NestedComment) : Prop :=
  ∀ c ∈ nc, (∃ f ∈ bf, f.comment_id = c.comment_id ∧ f.is_sub_comment = false) ∧
    SubCover bf c.sub_comments

/-- Reply sub-loop keeps the two id sets extensionally equal, provided
every reply is covered by the flat batch. -/
theorem processSubs_seen_iff (bf : List FlatComment) :
    ∀ (subs : List SubCommentData) (sN sF : List String),
      SubCover bf subs → (∀ x, x ∈ sN ↔ x ∈ sF) →
      ∀ x, x ∈ (processSubs bf sN sF subs).seenN ↔ x ∈ (processSubs bf sN sF subs).seenF := by
  intro subs
  induction subs with
  | nil => intro sN sF _ hiff x; simpa [processSubs] using hiff x
  | cons sc rest ih =>
    intro sN sF hcov hiff x
    by_cases h : sc.comment_id ∈ sN
    · simp only [processSubs, if_pos h]
      exact ih sN sF (fun d hd => hcov d (List.mem_cons_of_mem _ hd)) hiff x
    · obtain ⟨fsc, hfind⟩ :=
        findFlatSub_isSome bf sc.comment_id (hcov sc (List.mem_cons_self _ _))
      have hfid : fsc.comment_id = sc.comment_id := (findFlatSub_eq_some bf _ fsc hfind).1
      have h2 : fsc.comment_id ∉ sF := by
        rw [hfid]; intro hmem; exact h ((hiff _).mpr hmem)
      simp only [processSubs, if_neg h, hfind, if_neg h2]
      refine ih _ _ (fun d hd => hcov d (List.mem_cons_of_mem _ hd)) (fun y => ?_) x
      simp only [List.mem_cons, hfid]
      constructor
      · rintro (rfl | hy)
        · exact Or.inl rfl
        · exact Or.inr ((hiff y).mp hy)
      · rintro (rfl | hy)
        · exact Or.inl rfl
        · exact Or.inr ((hiff y).mpr hy)

/-- Merge loop keeps the two id sets extensionally equal, provided the
input batch is covered by the flat batch. -/
theorem mergeLoop_seen_iff (bf : List FlatComment) :
    ∀ (l : List NestedComment) (sN sF : List String),
      TopCover bf l → (∀ x, x ∈ sN ↔ x ∈ sF) →
      ∀ x, x ∈ (mergeLoop bf sN sF l).seenN ↔ x ∈ (mergeLoop bf sN sF l).seenF := by
  intro l
  induction l with
  | nil => intro sN sF _ hiff x; simpa [mergeLoop] using hiff x
  | cons c rest ih =>
    intro sN sF hcov hiff x
    by_cases h : c.comment_id ∈ sN
    · simp only [mergeLoop, if_pos h]
      exact ih sN sF (fun d hd => hcov d (List.mem_cons_of_mem _ hd)) hiff x
    · obtain ⟨fc, hfind⟩ :=
        findFlatTop_isSome bf c.comment_id (hcov c (List.mem_cons_self _ _)).1
      have hfid : fc.comment_id = c.comment_id := (findFlatTop_eq_some bf _ fc hfind).1
      have h2 : fc.comment_id ∉ sF := by
        rw [hfid]; intro hmem; exact h ((hiff _).mpr hmem)
      simp only [mergeLoop, if_neg h, hfind, if_neg h2]
      have hiff1 : ∀ y, y ∈ c.comment_id :: sN ↔ y ∈ fc.comment_id :: sF := by
        intro y
        simp only [List.mem_cons, hfid]
        constructor
        · rintro (rfl | hy)
          · exact Or.inl rfl
          · exact Or.inr ((hiff y).mp hy)
        · rintro (rfl | hy)
          · exact Or.inl rfl
          · exact Or.inr ((hiff y).mpr hy)
      exact ih _ _ (fun d hd => hcov d (List.mem_cons_of_mem _ hd))
        (processSubs_seen_iff bf c.sub_comments _ _
          (hcov c (List.mem_cons_self _ _)).2 hiff1) x

/-- Parser outputs over a fixed comment list are covered batches. -/
theorem topCover_parse (nid : String) (comments : List RawComment) :
    TopCover ((comments.map (flatSeg nid)).flatten) (comments.map parseNested) := by
  intro c hc
  rw [List.mem_map] at hc
  obtain ⟨c0, hc0, rfl⟩ := hc
  constructor
  · refine ⟨parseFlatTop nid c0, ?_, rfl, rfl⟩
    rw [List.mem_flatten]
    exact ⟨flatSeg nid c0, List.mem_map_of_mem _ hc0, List.mem_cons_self _ _⟩
  · intro sc hsc
    have hsc2 : sc ∈ (c0.sub_comments.getD []).map parseSubData := hsc
    rw [List.mem_map] at hsc2
    obtain ⟨sc0, hsc0, rfl⟩ := hsc2
    refine ⟨parseFlatSub nid c0 sc0, ?_, rfl, rfl⟩
    rw [List.mem_flatten]
    exact ⟨flatSeg nid c0, List.mem_map_of_mem _ hc0,
      List.mem_cons_of_mem _ (List.mem_map_of_mem _ hsc0)⟩

/-- Parser outputs are always covered batches. -/
theorem parse_cover (body : ResponseBody) (nid : String) :
    TopCover (parse_comment_response body nid).2 (parse_comment_response body nid).1 := by
  unfold parse_comment_response
  split
  · exact topCover_parse nid (commentsOf body)
  · intro c hc
    exact absurd hc (List.not_mem_nil c)

/-- Per-item consistency: the id set of the nested sequence equals the id
set of the flat sequence. -/
def StateInv (s : ItemState) : Prop :=
  ∀ x, x ∈ nestedIdList s.nested ↔ x ∈ flatIdList s.flat

/-- One merge of a covered batch preserves the consistency of a state. -/
theorem mergeState_inv (s : ItemState) (nc : List NestedComment) (fc : List FlatComment)
    (hcov : TopCover fc nc) (hinv : StateInv s) : StateInv (mergeState s nc fc) := by
  unfold mergeState
  cases hnil : (mergeLoop fc (nestedIdList s.nested) (flatIdList s.flat) nc).newN.isEmpty with
  | true => simpa [hnil] using hinv
  | false =>
    simp only [hnil, Bool.false_eq_true, if_false]
    intro x
    rw [nestedIdList_append, flatIdList_append]
    simp only [List.mem_append]
    have h1 := mergeLoop_seenN_mem fc nc (nestedIdList s.nested) (flatIdList s.flat) x
    have h2 := mergeLoop_seenF_mem fc nc (nestedIdList s.nested) (flatIdList s.flat) x
    have h3 := mergeLoop_seen_iff fc nc (nestedIdList s.nested) (flatIdList s.flat) hcov hinv x
    tauto

/-- One parse-then-merge step preserves the consistency of a state. -/
theorem applyBody_inv (s : ItemState) (b : ResponseBody) (nid : String)
    (hinv : StateInv s) : StateInv (applyBody s b nid) := by
  unfold applyBody
  simp only []
  split
  · exact hinv
  · exact mergeState_inv s _ _ (parse_cover b nid) hinv

/-- Consistency is preserved along any fold of parse-then-merge steps. -/
theorem applyAll_inv_aux (nid : String) :
    ∀ (bodies : List ResponseBody) (s : ItemState),
      StateInv s → StateInv (bodies.foldl (fun t b => applyBody t b nid) s) := by
  intro bodies
  induction bodies with
  | nil => intro s h; exact h
  | cons b rest ih => intro s h; exact ih _ (applyBody_inv s b nid h)

/-- Claim C2: for every reachable `ItemState` (any sequence of
parse-then-merge operations starting from the empty state), the set of
comment identifiers appearing anywhere in the nested sequence (top-level
ids together with reply ids) equals the set of identifiers of the flat
sequence. -/
theorem consistency_invariant (nid : String) (bodies : List ResponseBody) (x : String) :
    x ∈ nestedIdList (applyAll nid bodies).nested ↔
      x ∈ flatIdList (applyAll nid bodies).flat := by
  have h0 : StateInv ⟨[], []⟩ := by
    intro y
    simp [nestedIdList, flatIdList]
  exact applyAll_inv_aux nid bodies ⟨[], []⟩ h0 x

/-- Merging a batch all of whose top-level ids are already accumulated
leaves the state unchanged. -/
theorem mergeState_all_seen (s : ItemState) (nc : List NestedComment) (fc : List FlatComment)
    (h : ∀ c ∈ nc, c.comment_id ∈ nestedIdList s.nested) : mergeState s nc fc = s := by
  unfold mergeState
  rw [mergeLoop_all_seen fc nc _ _ h]
  simp

/-- After one merge, every top-level id of the batch is accumulated. -/
theorem mergeState_tops (s : ItemState) (nc : List NestedComment) (fc : List FlatComment) :
    ∀ c ∈ nc, c.comment_id ∈ nestedIdList (mergeState s nc fc).nested := by
  intro c hc
  unfold mergeState
  have htop := mergeLoop_tops_seen fc nc (nestedIdList s.nested) (flatIdList s.flat) c hc
  rw [mergeLoop_seenN_mem] at htop
  cases hnil : (mergeLoop fc (nestedIdList s.nested) (flatIdList s.flat) nc).newN.isEmpty with
  | true =>
    have hnil2 : (mergeLoop fc (nestedIdList s.nested) (flatIdList s.flat) nc).newN = [] :=
      List.isEmpty_iff.mp hnil
    simp only [hnil, if_true]
    rcases htop with h1 | h2
    · exact h1
    · rw [hnil2] at h2
      exact absurd h2 (List.not_mem_nil _)
  | false =>
    simp only [hnil, Bool.false_eq_true, if_false]
    rw [nestedIdList_append]
    exact List.mem_append.mpr htop

/-- One parse-then-merge step is idempotent on every state. -/
theorem applyBody_idem_aux (s : ItemState) (b : ResponseBody) (nid : String) :
    applyBody (applyBody s b nid) b nid = applyBody s b nid := by
  cases hempty : ((parse_comment_response b nid).1.isEmpty
      && (parse_comment_response b nid).2.isEmpty) with
  | true =>
    have h1 : ∀ t : ItemState, applyBody t b nid = t := by
      intro t
      simp [applyBody, hempty]
    rw [h1, h1]
  | false =>
    have h1 : ∀ t : ItemState, applyBody t b nid =
        mergeState t (parse_comment_response b nid).1 (parse_comment_response b nid).2 := by
      intro t
      simp only [applyBody]
      rw [hempty]
      simp
    rw [h1, h1]
    exact mergeState_all_seen _ _ _
      (mergeState_tops s (parse_comment_response b nid).1 (parse_comment_response b nid).2)

/-! Freshness of accepted rows: no id is accepted twice. -/

/-- Rows accepted by the reply sub-loop carry ids that are pairwise
distinct and absent from the initial flat id set. -/
theorem processSubs_acc_fresh (bf : List FlatComment) :
    ∀ (subs : List SubCommentData) (sN sF : List String),
      (∀ x ∈ flatIdList (processSubs bf sN sF subs).acc, x ∉ sF) ∧
        (flatIdList (processSubs bf sN sF subs).acc).Nodup := by
  intro subs
  induction subs with
  | nil =>
    intro sN sF
    constructor
    · intro x hx
      simp [processSubs, flatIdList] at hx
    · simp [processSubs, flatIdList]
  | cons sc rest ih =>
    intro sN sF
    by_cases h : sc.comment_id ∈ sN
    · simp only [processSubs, if_pos h]
      exact ih sN sF
    · cases hf : findFlatSub bf sc.comment_id with
      | none =>
        simp only [processSubs, if_neg h, hf]
        exact ih _ sF
      | some fsc =>
        by_cases h2 : fsc.comment_id ∈ sF
        · simp only [processSubs, if_neg h, hf, if_pos h2]
          exact ih _ sF
        · simp only [processSubs, if_neg h, hf, if_neg h2]
          obtain ⟨ihf, ihn⟩ := ih (sc.comment_id :: sN) (fsc.comment_id :: sF)
          constructor
          · intro x hx
            rw [flatIdList_cons, List.mem_cons] at hx
            rcases hx with rfl | hx
            · exact h2
            · exact fun hmem => (ihf x hx) (List.mem_cons_of_mem _ hmem)
          · rw [flatIdList_cons, List.nodup_cons]
            exact ⟨fun hmem => (ihf _ hmem) (List.mem_cons_self _ _), ihn⟩

/-- Rows accepted by the merge loop carry ids that are pairwise distinct
and absent from the initial flat id set. -/
theorem mergeLoop_newF_fresh (bf : List FlatComment) :
    ∀ (l : List NestedComment) (sN sF : List String),
      (∀ x ∈ flatIdList (mergeLoop bf sN sF l).newF, x ∉ sF) ∧
        (flatIdList (mergeLoop bf sN sF l).newF).Nodup := by
  intro l
  induction l with
  | nil =>
    intro sN sF
    constructor
    · intro x hx
      simp [mergeLoop, flatIdList] at hx
    · simp [mergeLoop, flatIdList]
  | cons c rest ih =>
    intro sN sF
    by_cases h : c.comment_id ∈ sN
    · simp only [mergeLoop, if_pos h]
      exact ih sN sF
    · have key : ∀ sF1 : List String,
          (∀ x ∈ flatIdList ((processSubs bf (c.comment_id :: sN) sF1 c.sub_comments).acc ++
              (mergeLoop bf (processSubs bf (c.comment_id :: sN) sF1 c.sub_comments).seenN
                (processSubs bf (c.comment_id :: sN) sF1 c.sub_comments).seenF rest).newF),
            x ∉ sF1) ∧
          (flatIdList ((processSubs bf (c.comment_id :: sN) sF1 c.sub_comments).acc ++
              (mergeLoop bf (processSubs bf (c.comment_id :: sN) sF1 c.sub_comments).seenN
                (processSubs bf (c.comment_id :: sN) sF1 c.sub_comments).seenF rest).newF)).Nodup := by
        intro sF1
        obtain ⟨pf, pn⟩ := processSubs_acc_fresh bf c.sub_comments (c.comment_id :: sN) sF1
        obtain ⟨rf, rn⟩ := ih (processSubs bf (c.comment_id :: sN) sF1 c.sub_comments).seenN
          (processSubs bf (c.comment_id :: sN) sF1 c.sub_comments).seenF
        constructor
        · intro x hx
          rw [flatIdList_append, List.mem_append] at hx
          rcases hx with hx | hx
          · exact pf x hx
          · intro hmem
            exact rf x hx ((processSubs_seenF_mem bf _ _ _ x).mpr (Or.inl hmem))
        · rw [flatIdList_append, List.nodup_append]
          refine ⟨pn, rn, ?_⟩
          intro a ha hb
          exact rf a hb ((processSubs_seenF_mem bf _ _ _ a).mpr (Or.inr ha))
      cases hft : findFlatTop bf c.comment_id with
      | none =>
        simp only [mergeLoop, if_neg h, hft, List.nil_append]
        exact key sF
      | some fc =>
        by_cases h2 : fc.comment_id ∈ sF
        · simp only [mergeLoop, if_neg h, hft, if_pos h2, List.nil_append]
          exact key sF
        · simp only [mergeLoop, if_neg h, hft, if_neg h2, List.singleton_append,
            List.cons_append]
          obtain ⟨kf, kn⟩ := key (fc.comment_id :: sF)
          constructor
          · intro x hx
            rw [flatIdList_cons, List.mem_cons] at hx
            rcases hx with rfl | hx
            · exact h2
            · exact fun hmem => (kf x hx) (List.mem_cons_of_mem _ hmem)
          · rw [flatIdList_cons, List.nodup_cons]
            exact ⟨fun hmem => (kf _ hmem) (List.mem_cons_self _ _), kn⟩

/-- Top-level ids of a nested sequence. -/
def topIdList (l : List NestedComment) : List String :=
  l.map (fun c => c.comment_id)

theorem topIdList_append (a b : List NestedComment) :
    topIdList (a ++ b) = topIdList a ++ topIdList b := by
  simp [topIdList]

/-- Top-level ids are among the ids of the nested sequence. -/
theorem topIdList_subset (l : List NestedComment) :
    ∀ x ∈ topIdList l, x ∈ nestedIdList l := by
  intro x hx
  rw [topIdList, List.mem_map] at hx
  obtain ⟨c, hc, rfl⟩ := hx
  unfold nestedIdList
  rw [List.mem_flatMap]
  exact ⟨c, hc, List.mem_cons_self _ _⟩

/-- Records accepted by the merge loop carry top-level ids that are
pairwise distinct and absent from the initial nested id set. -/
theorem mergeLoop_newN_tops_fresh (bf : List FlatComment) :
    ∀ (l : List NestedComment) (sN sF : List String),
      (∀ x ∈ topIdList (mergeLoop bf sN sF l).newN, x ∉ sN) ∧
        (topIdList (mergeLoop bf sN sF l).newN).Nodup := by
  intro l
  induction l with
  | nil =>
    intro sN sF
    constructor
    · intro x hx
      simp [mergeLoop, topIdList] at hx
    · simp [mergeLoop, topIdList]
  | cons c rest ih =>
    intro sN sF
    by_cases h : c.comment_id ∈ sN
    · simp only [mergeLoop, if_pos h]
      exact ih sN sF
    · simp only [mergeLoop, if_neg h]
      obtain ⟨rf, rn⟩ := ih
        (processSubs bf (c.comment_id :: sN)
          (match findFlatTop bf c.comment_id with
            | some fc => if fc.comment_id ∈ sF then (sF, ([] : List FlatComment))
                else (fc.comment_id :: sF, [fc])
            | none => (sF, [])).1 c.sub_comments).seenN
        (processSubs bf (c.comment_id :: sN)
          (match findFlatTop bf c.comment_id with
            | some fc => if fc.comment_id ∈ sF then (sF, ([] : List FlatComment))
                else (fc.comment_id :: sF, [fc])
            | none => (sF, [])).1 c.sub_comments).seenF
      constructor
      · intro x hx
        simp only [topIdList, List.map_cons, List.mem_cons] at hx
        rcases hx with rfl | hx
        · exact h
        · intro hmem
          refine rf x hx ?_
          rw [processSubs_seenN_mem]
          exact Or.inl (List.mem_cons_of_mem _ hmem)
      · simp only [topIdList, List.map_cons, List.nodup_cons]
        constructor
        · intro hmem
          refine rf _ hmem ?_
          rw [processSubs_seenN_mem]
          exact Or.inl (List.mem_cons_self _ _)
        · exact rn

/-- One parse-then-merge step preserves distinctness of flat ids. -/
theorem applyBody_flat_nodup (s : ItemState) (b : ResponseBody) (nid : String)
    (h : (flatIdList s.flat).Nodup) : (flatIdList (applyBody s b nid).flat).Nodup := by
  unfold applyBody
  simp only []
  split
  · exact h
  · unfold mergeState
    cases hnil : (mergeLoop (parse_comment_response b nid).2 (nestedIdList s.nested)
        (flatIdList s.flat) (parse_comment_response b nid).1).newN.isEmpty with
    | true => simpa [hnil] using h
    | false =>
      simp only [hnil, Bool.false_eq_true, if_false]
      rw [flatIdList_append, List.nodup_append]
      obtain ⟨hf, hn⟩ := mergeLoop_newF_fresh (parse_comment_response b nid).2
        (parse_comment_response b nid).1 (nestedIdList s.nested) (flatIdList s.flat)
      exact ⟨h, hn, fun a ha hb => hf a hb ha⟩

/-- One parse-then-merge step preserves distinctness of top-level ids. -/
theorem applyBody_top_nodup (s : ItemState) (b : ResponseBody) (nid : String)
    (h : (topIdList s.nested).Nodup) : (topIdList (applyBody s b nid).nested).Nodup := by
  unfold applyBody
  simp only []
  split
  · exact h
  · unfold mergeState
    cases hnil : (mergeLoop (parse_comment_response b nid).2 (nestedIdList s.nested)
        (flatIdList s.flat) (parse_comment_response b nid).1).newN.isEmpty with
    | true => simpa [hnil] using h
    | false =>
      simp only [hnil, Bool.false_eq_true, if_false]
      rw [topIdList_append, List.nodup_append]
      obtain ⟨hf, hn⟩ := mergeLoop_newN_tops_fresh (parse_comment_response b nid).2
        (parse_comment_response b nid).1 (nestedIdList s.nested) (flatIdList s.flat)
      exact ⟨h, hn, fun a ha hb => hf a hb (topIdList_subset s.nested a ha)⟩

/-- Distinctness of flat and top-level ids along any fold of steps. -/
theorem applyAll_nodup_aux (nid : String) :
    ∀ (bodies : List ResponseBody) (s : ItemState),
      (flatIdList s.flat).Nodup → (topIdList s.nested).Nodup →
      (flatIdList ((bodies.foldl (fun t b => applyBody t b nid) s)).flat).Nodup ∧
        (topIdList ((bodies.foldl (fun t b => applyBody t b nid) s)).nested).Nodup := by
  intro bodies
  induction bodies with
  | nil => intro s h1 h2; exact ⟨h1, h2⟩
  | cons b rest ih =>
    intro s h1 h2
    exact ih _ (applyBody_flat_nodup s b nid h1) (applyBody_top_nodup s b nid h2)

/-- Claim C3 (amended): parse-then-merge with the same body twice yields
the same `ItemState` as applying it once — the second application appends
nothing.  In every reachable state the flat sequence never carries two
records with the same identifier, and neither does the top level of the
nested sequence; reply records inside an accepted nested record, however,
are copied verbatim from the batch and may repeat an identifier (see the
counterexample). -/
theorem merge_idempotent_and_nodup (s : ItemState) (b : ResponseBody) (nid : String)
    (bodies : List ResponseBody) :
    applyBody (applyBody s b nid) b nid = applyBody s b nid ∧
    (flatIdList (applyAll nid bodies).flat).Nodup ∧
    (topIdList (applyAll nid bodies).nested).Nodup := by
  refine ⟨applyBody_idem_aux s b nid, ?_⟩
  exact applyAll_nodup_aux nid bodies ⟨[], []⟩ (by simp [flatIdList]) (by simp [topIdList])

/-- Skipped records contribute nothing: a top-level record whose id is in
the current nested id set can be deleted from the incoming batch, at any
position, without changing the result of the merge loop. -/
theorem mergeLoop_drop_seen (bf : List FlatComment) (c : NestedComment) :
    ∀ (pre post : List NestedComment) (sN sF : List String), c.comment_id ∈ sN →
      mergeLoop bf sN sF (pre ++ c :: post) = mergeLoop bf sN sF (pre ++ post) := by
  intro pre
  induction pre with
  | nil =>
    intro post sN sF hc
    simp only [List.nil_append, mergeLoop, if_pos hc]
  | cons a pre ih =>
    intro post sN sF hc
    by_cases h : a.comment_id ∈ sN
    · simp only [List.cons_append, mergeLoop, if_pos h]
      exact ih post sN sF hc
    · cases hft : findFlatTop bf a.comment_id with
      | none =>
        have hc2 : c.comment_id ∈ (processSubs bf (a.comment_id :: sN) sF a.sub_comments).seenN := by
          rw [processSubs_seenN_mem]
          exact Or.inl (List.mem_cons_of_mem _ hc)
        simp only [List.cons_append, mergeLoop, if_neg h, hft, List.append_eq]
        rw [ih post _ _ hc2]
      | some fa =>
        by_cases h2 : fa.comment_id ∈ sF
        · have hc2 : c.comment_id ∈ (processSubs bf (a.comment_id :: sN) sF a.sub_comments).seenN := by
            rw [processSubs_seenN_mem]
            exact Or.inl (List.mem_cons_of_mem _ hc)
          simp only [List.cons_append, mergeLoop, if_neg h, hft, if_pos h2, List.append_eq]
          rw [ih post _ _ hc2]
        · have hc2 : c.comment_id ∈
              (processSubs bf (a.comment_id :: sN) (fa.comment_id :: sF) a.sub_comments).seenN := by
            rw [processSubs_seenN_mem]
            exact Or.inl (List.mem_cons_of_mem _ hc)
          simp only [List.cons_append, mergeLoop, if_neg h, hft, if_neg h2, List.append_eq]
          rw [ih post _ _ hc2]

/-- Claim C4 (amended): during a merge, an incoming top-level record
whose identifier is already known is skipped: the merge result is the
same as if the record (with all its replies) were absent from the nested
batch.  Its nested form and its replies are never appended through its
own processing; a flat copy of one of its replies can still be appended
when a distinct accepted record carries a reply with the same identifier
(see the counterexample). -/
theorem merge_skips_known_top_record (s : ItemState) (c : NestedComment)
    (pre post : List NestedComment) (fc : List FlatComment)
    (h : c.comment_id ∈ nestedIdList s.nested) :
    mergeState s (pre ++ c :: post) fc = mergeState s (pre ++ post) fc := by
  unfold mergeState
  rw [mergeLoop_drop_seen fc c pre post _ _ h]

/-- Claim C1 (amended): a reply arriving under an already-accepted parent
is not added.  When every top-level identifier of the parsed batch is
already accumulated, the merge leaves the `ItemState` unchanged, so a new
reply carried by a known parent is dropped together with its parent. -/
theorem merge_all_known_tops_noop (s : ItemState) (b : ResponseBody) (nid : String)
    (h : ∀ c ∈ (parse_comment_response b nid).1, c.comment_id ∈ nestedIdList s.nested) :
    applyBody s b nid = s := by
  unfold applyBody
  simp only []
  split
  · rfl
  · exact mergeState_all_seen s _ _ h

open List

/-- Accepted nested records are a subsequence of the incoming batch:
their relative order is the batch order. -/
theorem mergeLoop_newN_sublist (bf : List FlatComment) :
    ∀ (l : List NestedComment) (sN sF : List String),
      (mergeLoop bf sN sF l).newN <+ l := by
  intro l
  induction l with
  | nil => intro sN sF; simp [mergeLoop]
  | cons c rest ih =>
    intro sN sF
    by_cases h : c.comment_id ∈ sN
    · simp only [mergeLoop, if_pos h]
      exact (ih sN sF).cons c
    · simp only [mergeLoop, if_neg h]
      exact (ih _ _).cons₂ c

/-- With pairwise-distinct ids in the batch, the reply lookup returns the
given matching row. -/
theorem findFlatSub_unique (bf : List FlatComment) (y : FlatComment)
    (hnd : (flatIdList bf).Nodup) (hy : y ∈ bf) (hsub : y.is_sub_comment = true) :
    findFlatSub bf y.comment_id = some y := by
  obtain ⟨f, hf⟩ := findFlatSub_isSome bf y.comment_id ⟨y, hy, rfl, hsub⟩
  obtain ⟨hid, _⟩ := findFlatSub_eq_some bf _ f hf
  have hfmem : f ∈ bf := List.mem_of_find?_eq_some hf
  have hfy : f = y :=
    List.inj_on_of_nodup_map (by simpa [flatIdList] using hnd) hfmem hy (by rw [hid])
  rw [hfy] at hf
  exact hf

/-- With pairwise-distinct ids in the batch, the top-level lookup returns
the given matching row. -/
theorem findFlatTop_unique (bf : List FlatComment) (y : FlatComment)
    (hnd : (flatIdList bf).Nodup) (hy : y ∈ bf) (hsub : y.is_sub_comment = false) :
    findFlatTop bf y.comment_id = some y := by
  obtain ⟨f, hf⟩ := findFlatTop_isSome bf y.comment_id ⟨y, hy, rfl, hsub⟩
  obtain ⟨hid, _⟩ := findFlatTop_eq_some bf _ f hf
  have hfmem : f ∈ bf := List.mem_of_find?_eq_some hf
  have hfy : f = y :=
    List.inj_on_of_nodup_map (by simpa [flatIdList] using hnd) hfmem hy (by rw [hid])
  rw [hfy] at hf
  exact hf

/-- Reply rows accepted for one parsed record keep the order of the
record's reply segment, when batch ids are pairwise distinct. -/
theorem processSubs_acc_sublist (bf : List FlatComment) (nid : String) (c0 : RawComment)
    (hnd : (flatIdList bf).Nodup) :
    ∀ (subs : List RawSubComment) (sN sF : List String),
      (∀ sc0 ∈ subs, parseFlatSub nid c0 sc0 ∈ bf) →
      (processSubs bf sN sF (subs.map parseSubData)).acc <+ subs.map (parseFlatSub nid c0) := by
  intro subs
  induction subs with
  | nil => intro sN sF _; simp [processSubs]
  | cons sc0 rest ih =>
    intro sN sF hmem
    have hb : parseFlatSub nid c0 sc0 ∈ bf := hmem sc0 (List.mem_cons_self _ _)
    have hrest := fun sc1 h1 => hmem sc1 (List.mem_cons_of_mem _ h1)
    have hfind : findFlatSub bf (parseSubData sc0).comment_id = some (parseFlatSub nid c0 sc0) :=
      findFlatSub_unique bf (parseFlatSub nid c0 sc0) hnd hb rfl
    by_cases h : (parseSubData sc0).comment_id ∈ sN
    · simp only [List.map_cons, processSubs, if_pos h]
      exact (ih sN sF hrest).cons _
    · simp only [List.map_cons, processSubs, if_neg h, hfind]
      by_cases h2 : (parseFlatSub nid c0 sc0).comment_id ∈ sF
      · simp only [if_pos h2]
        exact (ih _ _ hrest).cons _
      · simp only [if_neg h2]
        exact (ih _ _ hrest).cons₂ _

/-- Every row the parser derives from a comment list is in the parsed
flat batch. -/
theorem parse_rows_mem (nid : String) (comments : List RawComment) :
    ∀ c0 ∈ comments, parseFlatTop nid c0 ∈ (comments.map (flatSeg nid)).flatten ∧
      ∀ sc0 ∈ c0.sub_comments.getD [],
        parseFlatSub nid c0 sc0 ∈ (comments.map (flatSeg nid)).flatten := by
  intro c0 hc0
  constructor
  · rw [List.mem_flatten]
    exact ⟨flatSeg nid c0, List.mem_map_of_mem _ hc0, List.mem_cons_self _ _⟩
  · intro sc0 hsc0
    rw [List.mem_flatten]
    exact ⟨flatSeg nid c0, List.mem_map_of_mem _ hc0,
      List.mem_cons_of_mem _ (List.mem_map_of_mem _ hsc0)⟩

/-- Accepted flat rows keep the order of the parsed flat batch, provided
the batch ids are pairwise distinct. -/
theorem mergeLoop_newF_sublist_parse (nid : String) :
    ∀ (comments : List RawComment) (bf : List FlatComment) (sN sF : List String),
      (flatIdList bf).Nodup →
      (∀ c0 ∈ comments, parseFlatTop nid c0 ∈ bf ∧
        ∀ sc0 ∈ c0.sub_comments.getD [], parseFlatSub nid c0 sc0 ∈ bf) →
      (mergeLoop bf sN sF (comments.map parseNested)).newF <+
        (comments.map (flatSeg nid)).flatten := by
  intro comments
  induction comments with
  | nil => intro bf sN sF _ _; simp [mergeLoop]
  | cons c0 rest ih =>
    intro bf sN sF hnd hmem
    obtain ⟨htopmem, hsubmem⟩ := hmem c0 (List.mem_cons_self _ _)
    have hrest := fun c1 h1 => hmem c1 (List.mem_cons_of_mem _ h1)
    have hsubacc : ∀ sF1,
        (processSubs bf ((parseNested c0).comment_id :: sN) sF1
          ((c0.sub_comments.getD []).map parseSubData)).acc <+
          (c0.sub_comments.getD []).map (parseFlatSub nid c0) :=
      fun sF1 => processSubs_acc_sublist bf nid c0 hnd (c0.sub_comments.getD []) _ sF1 hsubmem
    by_cases h : (parseNested c0).comment_id ∈ sN
    · simp only [List.map_cons, mergeLoop, if_pos h, List.flatten_cons]
      exact (ih bf sN sF hnd hrest).trans (List.sublist_append_right _ _)
    · have hfind : findFlatTop bf (parseNested c0).comment_id = some (parseFlatTop nid c0) :=
        findFlatTop_unique bf (parseFlatTop nid c0) hnd htopmem rfl
      by_cases h2 : (parseFlatTop nid c0).comment_id ∈ sF
      · simp only [List.map_cons, mergeLoop, if_neg h, hfind, if_pos h2, List.flatten_cons,
          List.nil_append, flatSeg, List.cons_append]
        exact ((hsubacc sF).append (ih bf _ _ hnd hrest)).cons _
      · simp only [List.map_cons, mergeLoop, if_neg h, hfind, if_neg h2, List.flatten_cons,
          List.singleton_append, List.cons_append, flatSeg]
        exact ((hsubacc _).append (ih bf _ _ hnd hrest)).cons₂ _

/-- Both accumulated sequences only ever grow at the tail: the state
before a merge is an initial segment of the state after it. -/
theorem applyBody_extends (s : ItemState) (b : ResponseBody) (nid : String) :
    s.nested <+: (applyBody s b nid).nested ∧ s.flat <+: (applyBody s b nid).flat := by
  unfold applyBody
  simp only []
  split
  · exact ⟨⟨[], by simp⟩, ⟨[], by simp⟩⟩
  · unfold mergeState
    cases hnil : (mergeLoop (parse_comment_response b nid).2 (nestedIdList s.nested)
        (flatIdList s.flat) (parse_comment_response b nid).1).newN.isEmpty with
    | true =>
      simp only [hnil, if_true]
      exact ⟨⟨[], by simp⟩, ⟨[], by simp⟩⟩
    | false =>
      simp only [hnil, Bool.false_eq_true, if_false]
      exact ⟨⟨_, rfl⟩, ⟨_, rfl⟩⟩

/-- Claim C5 (amended): records accumulated before a merge precede every
record that merge introduces, in both sequences (the old state is an
initial segment of the new one); within one merge the accepted nested
records keep the relative order of the parsed batch, and the accepted
flat rows keep the relative order of the parsed flat batch provided the
flat batch carries pairwise-distinct identifiers.  When an identifier
repeats inside one batch the flat lookup returns its first occurrence,
which can invert the relative order (see the counterexample). -/
theorem merge_order_preservation (s : ItemState) (b : ResponseBody) (nid : String) :
    (s.nested <+: (applyBody s b nid).nested ∧ s.flat <+: (applyBody s b nid).flat) ∧
    (mergeLoop (parse_comment_response b nid).2 (nestedIdList s.nested) (flatIdList s.flat)
        (parse_comment_response b nid).1).newN <+ (parse_comment_response b nid).1 ∧
    ((flatIdList (parse_comment_response b nid).2).Nodup →
      (mergeLoop (parse_comment_response b nid).2 (nestedIdList s.nested) (flatIdList s.flat)
          (parse_comment_response b nid).1).newF <+ (parse_comment_response b nid).2) := by
  refine ⟨applyBody_extends s b nid, mergeLoop_newN_sublist _ _ _ _, ?_⟩
  intro hnd
  by_cases hgate : b.success = some true ∧ b.code = some 0
  · have hp1 : (parse_comment_response b nid).1 = (commentsOf b).map parseNested := by
      simp [parse_comment_response, hgate]
    have hp2 : (parse_comment_response b nid).2 = ((commentsOf b).map (flatSeg nid)).flatten := by
      simp [parse_comment_response, hgate]
    rw [hp2] at hnd
    rw [hp1, hp2]
    exact mergeLoop_newF_sublist_parse nid (commentsOf b) _ _ _ hnd (parse_rows_mem nid _)
  · have hp : parse_comment_response b nid = ([], []) := by
      simp [parse_comment_response, hgate]
    rw [hp]
    simp [mergeLoop]

/-- Claim C6: a body whose success flag is not `true` or whose status
code is not zero parses to empty nested and flat outputs, and the
subsequent merge leaves the item's state unchanged. -/
theorem parse_rejects_unsuccessful (body : ResponseBody) (nid : String) (s : ItemState)
    (h : body.success ≠ some true ∨ body.code ≠ some 0) :
    parse_comment_response body nid = ([], []) ∧ applyBody s body nid = s := by
  have hgate : ¬ (body.success = some true ∧ body.code = some 0) := by
    rcases h with h | h
    · exact fun hc => h hc.1
    · exact fun hc => h hc.2
  have hp : parse_comment_response body nid = ([], []) := by
    simp [parse_comment_response, hgate]
  refine ⟨hp, ?_⟩
  unfold applyBody
  rw [hp]
  simp

/-- Claim C7: field extraction is defensive.  An entry with every field
absent parses to the documented defaults (empty strings, `"0"` for the
like count); an absent author object yields an empty display name; and
parsing is compositional over the comment list, so one entry never
affects how the remaining entries of the batch are parsed. -/
theorem parse_defensive_defaults (nid : String) (xs ys : List RawComment) :
    parseNested ⟨none, none, none, none, none, none⟩ = ⟨"", "0", "", "", "", []⟩ ∧
    parseSubData ⟨none, none, none, none, none⟩ = ⟨"", "0", "", "", ""⟩ ∧
    parseFlatTop nid ⟨none, none, none, none, none, none⟩ =
      ⟨"", "0", "", "", nid, "", "", false⟩ ∧
    nicknameOf none = "" ∧
    parse_comment_response (mkOkBody (xs ++ ys)) nid =
      ((parse_comment_response (mkOkBody xs) nid).1 ++
          (parse_comment_response (mkOkBody ys) nid).1,
        (parse_comment_response (mkOkBody xs) nid).2 ++
          (parse_comment_response (mkOkBody ys) nid).2) := by
  refine ⟨rfl, rfl, rfl, rfl, ?_⟩
  simp [parse_comment_response, mkOkBody, commentsOf]

/-- Fold with list extension equals flat concatenation. -/
theorem foldl_append_eq_flatten {α β : Type} (f : α → List β) :
    ∀ (items : List α) (init : List β),
      items.foldl (fun acc p => acc ++ f p) init = init ++ (items.map f).flatten := by
  intro items
  induction items with
  | nil => intro init; simp
  | cons p rest ih =>
    intro init
    simp only [List.foldl_cons, List.map_cons, List.flatten_cons]
    rw [ih]
    simp

/-- Claim C8: the aggregate writer emits, under the two fixed filenames,
the concatenation of the per-item nested sequences in item-registration
order and a CSV whose rows are the concatenation of the per-item flat
sequences in the same order under the fixed eight-column header, with one
row per flat record (so the row count is the sum of the per-item counts). -/
theorem save_all_aggregate_spec (items : List (String × ItemState))
    (hne : items ≠ [])
    (hfl : ((items.map (fun p => p.2.flat)).flatten) ≠ []) :
    save_all_comments_to_file items =
      some ⟨"All CommentData.json", (items.map (fun p => p.2.nested)).flatten,
        some ("All CommentData.csv",
          csvHeader :: ((items.map (fun p => p.2.flat)).flatten).map flatRow)⟩ ∧
    (((items.map (fun p => p.2.flat)).flatten).map flatRow).length =
      (items.map (fun p => p.2.flat.length)).sum := by
  constructor
  · unfold save_all_comments_to_file
    have h1 : items.isEmpty = false := by
      rw [List.isEmpty_eq_false]
      exact hne
    have h2 : ((items.map (fun p => p.2.flat)).flatten).isEmpty = false := by
      rw [List.isEmpty_eq_false]
      exact hfl
    simp only [h1, Bool.false_eq_true, if_false,
      foldl_append_eq_flatten (fun p => p.2.nested) items [],
      foldl_append_eq_flatten (fun p => p.2.flat) items [],
      List.nil_append, h2, Bool.and_false, if_false]
  · rw [List.length_map, List.length_flatten, List.map_map]
    rfl

/-- Claim C9: handling one qualifying response mutates at most the entry
of the note id extracted from the URL; every other note id keeps exactly
the accumulated state it had, and a URL without an extractable note id
changes nothing at all. -/
theorem handle_response_frame (g : String → ItemState) (url : String) (body : ResponseBody) :
    (∀ (nid : List Char) (m : String),
        searchHexRun noteIdPat url.toList = some nid → m ≠ String.mk nid →
        handle_comment_api_response g url body m = g m) ∧
    (searchHexRun noteIdPat url.toList = none →
        handle_comment_api_response g url body = g) := by
  constructor
  · intro nid m hfind hne
    unfold handle_comment_api_response
    cases hc : containsSeq commentApiPat url.toList with
    | false => simp [hc]
    | true =>
      simp only [hc, if_true, hfind]
      exact Function.update_noteq hne _ g
  · intro hnone
    unfold handle_comment_api_response
    cases hc : containsSeq commentApiPat url.toList with
    | false => simp [hc]
    | true =>
      have hnone2 : searchHexRun noteIdPat url.data = none := hnone
      simp [hc, hnone2]

/-- Bool-level characterisation of `List.isPrefixOf` over characters. -/
theorem isPrefixOf_iff_exists (pat : List Char) :
    ∀ s : List Char, pat.isPrefixOf s = true ↔ ∃ t, s = pat ++ t := by
  induction pat with
  | nil =>
    intro s
    simp [List.isPrefixOf]
  | cons a pat ih =>
    intro s
    cases s with
    | nil => simp [List.isPrefixOf]
    | cons b s =>
      simp only [List.isPrefixOf, Bool.and_eq_true, beq_iff_eq, ih s, List.cons_append]
      constructor
      · rintro ⟨rfl, t, rfl⟩
        exact ⟨t, rfl⟩
      · rintro ⟨t, ht⟩
        rw [List.cons.injEq] at ht
        exact ⟨ht.1.symm, t, ht.2⟩

/-- Specification of a successful search: the returned run sits right
after an occurrence of the pattern, is a nonempty maximal `[a-f0-9]` run,
and the occurrence is the leftmost one followed by a hex character. -/
def HexRunAt (pat u r : List Char) : Prop :=
  ∃ s1 s2, u = s1 ++ pat ++ r ++ s2
    ∧ r ≠ [] ∧ (∀ ch ∈ r, isHexDigitLower ch = true)
    ∧ (∀ d, s2.head? = some d → isHexDigitLower d = false)
    ∧ ∀ t1 t2, u = t1 ++ pat ++ t2 → isHexDigitLower (t2.headD ' ') = true →
        s1.length ≤ t1.length

/-- The searcher meets its specification. -/
theorem searchHexRun_spec (pat : List Char) :
    ∀ (u r : List Char), searchHexRun pat u = some r → HexRunAt pat u r := by
  intro u
  induction u with
  | nil => intro r h; simp [searchHexRun] at h
  | cons c rest ih =>
    intro r h
    by_cases hb : (pat.isPrefixOf (c :: rest)
        && isHexDigitLower (((c :: rest).drop pat.length).headD ' ')) = true
    · rw [searchHexRun, if_pos hb] at h
      obtain ⟨hp, hh⟩ := Bool.and_eq_true_iff.mp hb
      obtain ⟨t, ht⟩ := (isPrefixOf_iff_exists pat (c :: rest)).mp hp
      have hdrop : (c :: rest).drop pat.length = t := by
        rw [ht, List.drop_left]
      rw [hdrop] at h hh
      have hr : r = t.takeWhile isHexDigitLower := by
        injection h with h2
        exact h2.symm
      subst hr
      refine ⟨[], t.dropWhile isHexDigitLower, ?_, ?_, ?_, ?_, ?_⟩
      · rw [ht]
        simp [List.takeWhile_append_dropWhile]
      · cases t with
        | nil => exact absurd hh (by decide)
        | cons d t2 =>
          simp only [List.headD_cons] at hh
          simp [List.takeWhile_cons_of_pos hh]
      · intro ch hch
        exact List.mem_takeWhile_imp hch
      · intro d hd
        have hw := List.head?_dropWhile_not isHexDigitLower t
        rw [hd] at hw
        exact hw
      · intro t1 t2 hu hhex2
        simp
    · rw [searchHexRun, if_neg hb] at h
      obtain ⟨s1, s2, hu, hr, hhex, hstop, hmin⟩ := ih r h
      refine ⟨c :: s1, s2, ?_, hr, hhex, hstop, ?_⟩
      · simp [hu, List.cons_append]
      · intro t1 t2 hu2 hhex2
        cases t1 with
        | nil =>
          exfalso
          apply hb
          rw [List.nil_append] at hu2
          have hp : pat.isPrefixOf (c :: rest) = true :=
            (isPrefixOf_iff_exists pat _).mpr ⟨t2, hu2⟩
          have hdrop : (c :: rest).drop pat.length = t2 := by
            rw [hu2, List.drop_left]
          rw [Bool.and_eq_true_iff]
          exact ⟨hp, by rw [hdrop]; exact hhex2⟩
        | cons c1 t1 =>
          have hc1 : c :: rest = c1 :: (t1 ++ pat ++ t2) := by
            simpa [List.cons_append] using hu2
          rw [List.cons.injEq] at hc1
          simp only [List.length_cons]
          exact Nat.succ_le_succ (hmin t1 t2 hc1.2 hhex2)

/-- Claim C10: note-id extraction is total and deterministic; it returns
the leftmost maximal lowercase-hex run following `/explore/` when one
exists, otherwise the leftmost such run following `note_id=`, otherwise
the empty string — so the explore form always takes precedence. -/
theorem extract_note_id_spec (url : String) :
    (∀ r, searchHexRun explorePat url.toList = some r →
        extract_note_id_from_url url = String.mk r ∧ HexRunAt explorePat url.toList r) ∧
    (searchHexRun explorePat url.toList = none →
      ∀ r, searchHexRun noteIdPat url.toList = some r →
        extract_note_id_from_url url = String.mk r ∧ HexRunAt noteIdPat url.toList r) ∧
    (searchHexRun explorePat url.toList = none →
      searchHexRun noteIdPat url.toList = none → extract_note_id_from_url url = "") := by
  refine ⟨?_, ?_, ?_⟩
  · intro r h
    constructor
    · unfold extract_note_id_from_url
      rw [h]
    · exact searchHexRun_spec explorePat url.toList r h
  · intro hnone r h
    constructor
    · unfold extract_note_id_from_url
      rw [hnone, h]
    · exact searchHexRun_spec noteIdPat url.toList r h
  · intro h1 h2
    unfold extract_note_id_from_url
    rw [h1, h2]

/-! Concrete scenarios. -/

/-- Body carrying one top-level comment `p` without replies. -/
def bodyP : ResponseBody := mkOkBody [mkRawTop "p" []]

/-- Body carrying top-level comment `p` with the new reply `r`. -/
def bodyPR : ResponseBody := mkOkBody [mkRawTop "p" [mkRawSub "r"]]

/-- State of an item after accepting comment `p` alone. -/
def statePOnly : ItemState := applyBody ⟨[], []⟩ bodyP "n"

/-- Body repeating one reply id under a single parent. -/
def bodyDup : ResponseBody := mkOkBody [mkRawTop "p" [mkRawSub "x", mkRawSub "x"]]

/-- State of an item after accepting comment `p1` alone. -/
def stateP1 : ItemState := applyBody ⟨[], []⟩ (mkOkBody [mkRawTop "p1" []]) "n"

/-- Body carrying the known parent `p1` and the new parent `p2`, both
with a reply of id `x`. -/
def bodyTwoParents : ResponseBody :=
  mkOkBody [mkRawTop "p1" [mkRawSub "x"], mkRawTop "p2" [mkRawSub "x"]]

/-- Flat row of `p1` as parsed from `bodyTwoParents`. -/
def rowP1 : FlatComment := ⟨"", "0", "", "", "n", "p1", "", false⟩

/-- Flat row of the reply `x` under `p1`. -/
def rowXunderP1 : FlatComment := ⟨"", "0", "", "", "n", "x", "p1", true⟩

/-- Flat row of `p2`. -/
def rowP2 : FlatComment := ⟨"", "0", "", "", "n", "p2", "", false⟩

/-- Flat row of the reply `x` under `p2`. -/
def rowXunderP2 : FlatComment := ⟨"", "0", "", "", "n", "x", "p2", true⟩

/-- Claim C1 is false on the code: the item already holds top-level
comment `p`; a later batch carries `p` with the never-seen reply `r`, and
the merge changes nothing — `r` is appended to neither sequence. -/
theorem claim1_counterexample :
    applyBody statePOnly bodyPR "n" = statePOnly ∧
    "r" ∉ flatIdList (applyBody statePOnly bodyPR "n").flat ∧
    "r" ∉ nestedIdList (applyBody statePOnly bodyPR "n").nested := by
  decide

/-- Witness of the amended claim C1 on the same scenario. -/
theorem merge_all_known_tops_noop_witness :
    applyBody statePOnly bodyPR "n" = statePOnly :=
  merge_all_known_tops_noop statePOnly bodyPR "n" (by decide)

/-- Claim C3 is false on the code as stated: after feeding `bodyDup`
twice from the empty state, the single accepted nested record carries two
reply records with the same identifier `x` at the same level. -/
theorem claim3_counterexample :
    ((applyBody (applyBody ⟨[], []⟩ bodyDup "n") bodyDup "n").nested.map
        (fun c => c.sub_comments.map (fun sc => sc.comment_id))) = [["x", "x"]] ∧
    ¬ (((applyBody (applyBody ⟨[], []⟩ bodyDup "n") bodyDup "n").nested.flatMap
        (fun c => c.sub_comments.map (fun sc => sc.comment_id))).Nodup) := by
  decide

/-- Claim C4 is false on the code as stated: `p1` is already known, the
batch carries `p1` with reply `x` and the new parent `p2` with a reply of
the same id `x`; the merge then appends the flat row of the skipped
record's reply — the row carrying parent id `p1` — to the flat sequence. -/
theorem claim4_counterexample :
    "p1" ∈ nestedIdList stateP1.nested ∧
    rowXunderP1 ∈ (applyBody stateP1 bodyTwoParents "n").flat := by
  decide

/-- Witness of the amended claim C4: deleting a known-id record from the
incoming nested batch does not change the merge. -/
theorem merge_skips_known_top_record_witness :
    mergeState stateP1 ([] ++ (⟨"", "0", "", "", "p1", []⟩ : NestedComment) :: []) [] =
      mergeState stateP1 ([] ++ []) [] :=
  merge_skips_known_top_record stateP1 ⟨"", "0", "", "", "p1", []⟩ [] [] [] (by decide)

/-- Claim C5 is false on the code as stated: in the `bodyTwoParents`
merge into `stateP1`, the accepted flat rows are `[p2, x-under-p1]`
although `x-under-p1` precedes `p2` in the parsed flat batch — the
accepted rows are not a subsequence of the batch. -/
theorem claim5_counterexample :
    (parse_comment_response bodyTwoParents "n").2 = [rowP1, rowXunderP1, rowP2, rowXunderP2] ∧
    (mergeLoop (parse_comment_response bodyTwoParents "n").2 (nestedIdList stateP1.nested)
        (flatIdList stateP1.flat) (parse_comment_response bodyTwoParents "n").1).newF =
      [rowP2, rowXunderP1] ∧
    ¬ ((mergeLoop (parse_comment_response bodyTwoParents "n").2 (nestedIdList stateP1.nested)
        (flatIdList stateP1.flat) (parse_comment_response bodyTwoParents "n").1).newF <+
      (parse_comment_response bodyTwoParents "n").2) := by
  decide

/-- Witness of the amended claim C5 on a batch with distinct ids. -/
theorem merge_order_preservation_witness :
    ((⟨[], []⟩ : ItemState).nested <+: (applyBody ⟨[], []⟩ bodyPR "n").nested ∧
      (⟨[], []⟩ : ItemState).flat <+: (applyBody ⟨[], []⟩ bodyPR "n").flat) ∧
    (mergeLoop (parse_comment_response bodyPR "n").2
        (nestedIdList (⟨[], []⟩ : ItemState).nested)
        (flatIdList (⟨[], []⟩ : ItemState).flat) (parse_comment_response bodyPR "n").1).newN <+
      (parse_comment_response bodyPR "n").1 ∧
    (mergeLoop (parse_comment_response bodyPR "n").2
        (nestedIdList (⟨[], []⟩ : ItemState).nested)
        (flatIdList (⟨[], []⟩ : ItemState).flat) (parse_comment_response bodyPR "n").1).newF <+
      (parse_comment_response bodyPR "n").2 := by
  obtain ⟨h1, h2, h3⟩ := merge_order_preservation ⟨[], []⟩ bodyPR "n"
  exact ⟨h1, h2, h3 (by decide)⟩

/-- Body whose success flag is false. -/
def badBody : ResponseBody := ⟨some false, some 0, some ⟨some [mkRawTop "q" []]⟩⟩

/-- Witness of claim C6 on a concrete unsuccessful body. -/
theorem parse_rejects_unsuccessful_witness :
    parse_comment_response badBody "n" = ([], []) ∧
      applyBody statePOnly badBody "n" = statePOnly :=
  parse_rejects_unsuccessful badBody "n" statePOnly (Or.inl (by decide))

/-- Item holding three flat records. -/
def demoState1 : ItemState :=
  applyBody ⟨[], []⟩ (mkOkBody [mkRawTop "a1" [mkRawSub "a2", mkRawSub "a3"]]) "n1"

/-- Item holding two flat records. -/
def demoState2 : ItemState :=
  applyBody ⟨[], []⟩ (mkOkBody [mkRawTop "b1" [mkRawSub "b2"]]) "n2"

/-- Two registered items with three and two flat records. -/
def demoItems : List (String × ItemState) := [("n1", demoState1), ("n2", demoState2)]

/-- Witness of claim C8: the aggregate of the two demo items is the
five-row concatenation in registration order. -/
theorem save_all_aggregate_spec_witness :
    save_all_comments_to_file demoItems =
      some ⟨"All CommentData.json", (demoItems.map (fun p => p.2.nested)).flatten,
        some ("All CommentData.csv",
          csvHeader :: ((demoItems.map (fun p => p.2.flat)).flatten).map flatRow)⟩ ∧
    (((demoItems.map (fun p => p.2.flat)).flatten).map flatRow).length = 5 := by
  obtain ⟨h1, h2⟩ := save_all_aggregate_spec demoItems (by decide) (by decide)
  refine ⟨h1, ?_⟩
  rw [h2]
  decide

/-- Qualifying comment API URL of the demo item. -/
def demoUrl : String :=
  "https://edith.xiaohongshu.com/api/sns/web/v2/comment/page?note_id=abc123"

/-- Witness of claim C9: handling a qualifying response for `abc123`
leaves the state of the unrelated id `zzz` unchanged. -/
theorem handle_response_frame_witness :
    handle_comment_api_response (fun _ => ⟨[], []⟩) demoUrl bodyP "zzz" = ⟨[], []⟩ := by
  obtain ⟨h1, _⟩ := handle_response_frame (fun _ => ⟨[], []⟩) demoUrl bodyP
  exact h1 "abc123".toList "zzz" (by decide) (by decide)

/-- URL carrying both an explore segment and a `note_id=` parameter. -/
def demoUrl2 : String := "https://www.xiaohongshu.com/explore/66f1?note_id=9abc"

/-- Witness of claim C10: on a URL with both forms the explore run wins. -/
theorem extract_note_id_spec_witness :
    extract_note_id_from_url demoUrl2 = String.mk "66f1".toList ∧
      HexRunAt explorePat demoUrl2.toList "66f1".toList :=
  (extract_note_id_spec demoUrl2).1 "66f1".toList (by decide)
